import Mathlib

/-!
A shallow embedding of the book-search program (`book_search.js`): the
`Book` class (construction, ISBN validation, per-term search with word
tokenization, phrase matching and the hyphen-break continuation check),
the `PageLineText` and `SearchResult` value classes, and the
`findSearchTermInBooks` entry point.

Strings are modelled as lists of Unicode scalar values (`List Char`);
for the character classes and operations the program uses this agrees
with JavaScript's UTF-16 view.  JavaScript exceptions are modelled with
`Except JsError`; each throw site of the source gets its own error
constructor.  JavaScript numbers only ever hold integral values here
(the program validates `n % 1 === 0`), so page and line numbers are
modelled as `Int`.
-/

namespace BookSearch

/-- Character class of `Book.#WORD_REGEX`, i.e. the set
`[A-Za-z'\-À-ÖØ-Ýà-öø-ÿ]` (letters, apostrophe, hyphen, and the four
Latin-1 accented ranges). -/
def isWordChar (c : Char) : Bool :=
  (65 ≤ c.toNat && c.toNat ≤ 90) || (97 ≤ c.toNat && c.toNat ≤ 122) ||
  c.toNat == 39 || c.toNat == 45 ||
  (192 ≤ c.toNat && c.toNat ≤ 214) || (216 ≤ c.toNat && c.toNat ≤ 221) ||
  (224 ≤ c.toNat && c.toNat ≤ 246) || (248 ≤ c.toNat && c.toNat ≤ 255)

/-- Character class of the control-character regex in
`findSearchTermInBooks`, i.e. `[\u0000-\u001F\u007F-\u009F]`. -/
def isControlChar (c : Char) : Bool :=
  c.toNat ≤ 31 || (127 ≤ c.toNat && c.toNat ≤ 159)

/-- The JavaScript `String.prototype.trim` whitespace set: WhiteSpace
(TAB, VT, FF, SP, NBSP, ZWNBSP and the Unicode space separators) plus
the line terminators LF, CR, LS, PS. -/
def isJsWhitespace (c : Char) : Bool :=
  c.toNat == 9 || c.toNat == 10 || c.toNat == 11 || c.toNat == 12 ||
  c.toNat == 13 || c.toNat == 32 || c.toNat == 160 || c.toNat == 5760 ||
  (8192 ≤ c.toNat && c.toNat ≤ 8202) || c.toNat == 8232 ||
  c.toNat == 8233 || c.toNat == 8239 || c.toNat == 8287 ||
  c.toNat == 12288 || c.toNat == 65279

/-- `text.trim()` of the `PageLineText` constructor. -/
def jsTrim (s : List Char) : List Char :=
  ((s.dropWhile isJsWhitespace).reverse.dropWhile isJsWhitespace).reverse

/-- `lineText.match(Book.#WORD_REGEX)`: the maximal runs of word
characters, in order.  The accumulator holds the current run reversed;
a `match` that finds nothing returns `[]` here (the JavaScript `null`
is handled at each use site). -/
def tokenizeAux : List Char → List Char → List (List Char)
  | [], acc => if acc.isEmpty then [] else [acc.reverse]
  | c :: cs, acc =>
    if isWordChar c then tokenizeAux cs (c :: acc)
    else if acc.isEmpty then tokenizeAux cs []
    else acc.reverse :: tokenizeAux cs []

/-- The token list of a line of text (see `tokenizeAux`). -/
def tokenize (s : List Char) : List (List Char) :=
  tokenizeAux s []

/-- `word.replace("-", "")`: JavaScript `replace` with a string pattern
removes only the first occurrence. -/
def removeFirstHyphen : List Char → List Char
  | [] => []
  | c :: cs => if c == '-' then cs else c :: removeFirstHyphen cs

/-- `hay.includes(needle)`: contiguous-substring test. -/
def jsIncludes (hay needle : List Char) : Bool :=
  match hay with
  | [] => needle.isEmpty
  | _ :: t => needle.isPrefixOf hay || jsIncludes t needle

/-- Consume exactly `n` ASCII decimal digits (`\d{n}`), returning the
rest of the string, or `none` if fewer than `n` digits are present. -/
def digitRun : Nat → List Char → Option (List Char)
  | 0, s => some s
  | _ + 1, [] => none
  | n + 1, c :: cs => if c.isDigit then digitRun n cs else none

/-- `Book.validateISBN`'s regex test `/^\d{10}(\d{3})?$/`: ten digits,
then (greedily, with backtracking) optionally three more, then the end
of the string. -/
def validateISBN (s : List Char) : Bool :=
  match digitRun 10 s with
  | none => false
  | some rest =>
    (match digitRun 3 rest with
     | some [] => true
     | _ => rest.isEmpty)

/-- One error constructor per throw site of the source that this
embedding can reach. -/
inductive JsError where
  | termNotString
  | termEmpty
  | termControl
  | isbnNotString
  | emptyTitle
  | invalidIsbn
  | invalidPageNum
  | invalidLineNum
  | duplicateEntry (page line : Int)
  | typeError
  deriving DecidableEq, Repr

/-- A dynamically typed JavaScript argument, for the throw-on-non-string
paths. -/
inductive JsValue where
  | str (s : List Char)
  | other
  deriving DecidableEq, Repr

/-- `Book.validateISBN` including its throw on non-string input. -/
def validateISBNJs : JsValue → Except JsError Bool
  | .str s => .ok (validateISBN s)
  | .other => .error .isbnNotString

/-- A stored line: the `PageLineText` class (page, line, trimmed text). -/
structure PageLineText where
  page : Int
  line : Int
  text : List Char
  deriving DecidableEq, Repr

/-- A match: the `SearchResult` class (page, line, ISBN). -/
structure SearchResult where
  page : Int
  line : Int
  isbn : List Char
  deriving DecidableEq, Repr

/-- One raw `Content` entry of a book record. -/
structure RawScanLine where
  Page : Int
  Line : Int
  Text : List Char
  deriving DecidableEq, Repr

/-- One raw book record of the corpus. -/
structure RawBook where
  Title : List Char
  ISBN : List Char
  Content : List RawScanLine
  deriving DecidableEq, Repr

/-- `PageLine.#validatePageOrLineNum`: positive (the `% 1 === 0`
integrality test always holds for the `Int`-valued model). -/
def validatePageOrLineNum (n : Int) : Bool :=
  decide (0 < n)

/-- The `PageLineText` constructor: validate page then line (in the
`PageLine` base constructor), then store the trimmed text. -/
def mkPageLineText (p l : Int) (t : List Char) : Except JsError PageLineText :=
  if !validatePageOrLineNum p then .error .invalidPageNum
  else if !validatePageOrLineNum l then .error .invalidLineNum
  else .ok ⟨p, l, jsTrim t⟩

/-- Constructed validated entries in insertion order.  The JavaScript
table `#contentArr[page][line]` is recovered from this list by
`contentLookup` and the key-ordering functions below; the constructor
guarantees coordinates are unique. -/
def buildContent : List RawScanLine → List PageLineText → Except JsError (List PageLineText)
  | [], acc => .ok acc
  | e :: rest, acc => do
    let plt ← mkPageLineText e.Page e.Line e.Text
    if (acc.find? (fun q => q.page == plt.page && q.line == plt.line)).isSome then
      .error (.duplicateEntry plt.page plt.line)
    else
      buildContent rest (acc ++ [plt])

/-- The `Book` class: title, ISBN and the validated stored lines. -/
structure Book where
  title : List Char
  isbn : List Char
  entries : List PageLineText
  deriving DecidableEq, Repr

/-- The `Book` constructor: empty-title check, ISBN validation, then the
content loop with its per-entry validation and duplicate check. -/
def buildBook (title isbn : List Char) (content : List RawScanLine) : Except JsError Book :=
  if title.isEmpty then .error .emptyTitle
  else if !validateISBN isbn then .error .invalidIsbn
  else (buildContent content []).map (fun entries => ⟨title, isbn, entries⟩)

/-- `this.#contentArr[p][l]` as a lookup over the stored entries. -/
def contentLookup (entries : List PageLineText) (p l : Int) : Option PageLineText :=
  entries.find? (fun e => e.page == p && e.line == l)

/-- First decimal digit of `n` (fuel-driven so that it evaluates in the
kernel); the fuel `n` itself always suffices. -/
def firstDigitAux : Nat → Nat → Nat
  | 0, n => n
  | fuel + 1, n => if n < 10 then n else firstDigitAux fuel (n / 10)

/-- `key.charCodeAt(0)` for an object key that stringifies a validated
(positive) page or line number: 48 plus the leading decimal digit. -/
def keyFirstCharCode (k : Int) : Nat :=
  48 + firstDigitAux k.toNat k.toNat

/-- Insert `a` after every element `b` of a sorted list with `le b a`;
the building block of a stable insertion sort. -/
def sortInsert (le : Int → Int → Bool) (a : Int) : List Int → List Int
  | [] => [a]
  | b :: bs => if le b a then b :: sortInsert le a bs else a :: b :: bs

/-- Stable sort (JavaScript `Array.prototype.sort` is stable): left fold
of stable insertions. -/
def jsSort (le : Int → Int → Bool) (l : List Int) : List Int :=
  l.foldl (fun acc x => sortInsert le x acc) []

/-- The comparator of `Book.searchForTerm` as a total order:
`comparator(a, b) = a.charCodeAt(0) - b.charCodeAt(0)` sorts ascending
by the first character code of the key. -/
def comparatorLe (a b : Int) : Bool :=
  decide (keyFirstCharCode a ≤ keyFirstCharCode b)

/-- Keys of the first occurrence, in insertion order, skipping ones seen
before (object properties are created once). -/
def insertionOrderKeys (seen : List Int) : List Int → List Int
  | [] => []
  | k :: ks =>
    if seen.contains k then insertionOrderKeys seen ks
    else k :: insertionOrderKeys (seen ++ [k]) ks

/-- `Object.keys` order: integer-like keys below 2^32 - 1 ascending
numerically first, then the remaining keys in insertion order. -/
def jsObjectKeys (ks : List Int) : List Int :=
  jsSort (fun a b => decide (a ≤ b)) (ks.filter (fun k => decide (k < 4294967295))) ++
    ks.filter (fun k => !decide (k < 4294967295))

/-- The page keys of `Object.keys(this.#contentArr)` after the
`comparator` sort in `Book.searchForTerm`. -/
def sortedPageKeys (bk : Book) : List Int :=
  jsSort comparatorLe (jsObjectKeys (insertionOrderKeys [] (bk.entries.map (·.page))))

/-- The line keys of `Object.keys(this.#contentArr[p])` after the
`comparator` sort in `Book.searchForTerm`. -/
def sortedLineKeys (bk : Book) (p : Int) : List Int :=
  jsSort comparatorLe (jsObjectKeys ((bk.entries.filter (fun e => e.page == p)).map (·.line)))

/-- `Book.#searchForLineBreakedTerm`.  `.error .typeError` marks the
sites where the source calls `.pop()` or `.shift()` on the `null` that
`match` returns for a text with no word characters. -/
def searchForLineBreakedTerm (searchTerm currentLineText : List Char)
    (subsequentLineText : Option (List Char)) : Except JsError Bool :=
  match subsequentLineText with
  | none => .ok false
  | some subText =>
    if !(['-'].isSuffixOf currentLineText) then .ok false
    else
      match (tokenize currentLineText).getLast? with
      | none => .error .typeError
      | some lastWord =>
        let lineEnd := removeFirstHyphen lastWord
        if lineEnd.isPrefixOf searchTerm then
          let leftOverStr := searchTerm.drop lineEnd.length
          match (tokenize subText).head? with
          | none => .error .typeError
          | some firstWord => .ok (leftOverStr == firstWord)
        else .ok false

/-- `Book.#addSearchResult`: the exact-word branch, the phrase branch,
then the hyphen-break branch; returns the matches pushed for this line.
The lookup of `#contentArr[page][line + 1]` is `contentLookup` (the page
key exists whenever the line being processed came from the table). -/
def addSearchResult (entries : List PageLineText) (isbn : List Char)
    (plt : PageLineText) (searchTerm : List Char) : Except JsError (List SearchResult) :=
  let lineText := plt.text
  let wordArr := tokenize lineText
  if wordArr.contains searchTerm then
    .ok [⟨plt.page, plt.line, isbn⟩]
  else if jsIncludes searchTerm [' '] && jsIncludes lineText searchTerm then
    .ok [⟨plt.page, plt.line, isbn⟩]
  else
    let subsequentLine := contentLookup entries plt.page (plt.line + 1)
    let subsequentLineText := subsequentLine.map (·.text)
    match searchForLineBreakedTerm searchTerm lineText subsequentLineText with
    | .error e => .error e
    | .ok true =>
      .ok [⟨plt.page, plt.line, isbn⟩, ⟨plt.page, plt.line + 1, isbn⟩]
    | .ok false => .ok []

/-- `Book.searchForTerm`: iterate the sorted page keys, within each the
sorted line keys, appending each line's matches. -/
def searchForTerm (bk : Book) (searchTerm : List Char) : Except JsError (List SearchResult) :=
  (sortedPageKeys bk).foldlM (fun acc p =>
    (sortedLineKeys bk p).foldlM (fun acc2 l =>
      match contentLookup bk.entries p l with
      | some plt => do
        let rs ← addSearchResult bk.entries bk.isbn plt searchTerm
        pure (acc2 ++ rs)
      | none => pure acc2) acc) []

/-- The result object `{ SearchTerm, Results }`. -/
structure SearchOutput where
  SearchTerm : List Char
  Results : List SearchResult
  deriving DecidableEq, Repr

/-- `findSearchTermInBooks` for a string search term: term validation,
then one `Book` construction and search per book record, concatenating
the matches in book order. -/
def findSearchTermInBooks (searchTerm : List Char) (books : List RawBook) :
    Except JsError SearchOutput := do
  if searchTerm.isEmpty then
    throw .termEmpty
  else if searchTerm.any isControlChar then
    throw .termControl
  else
    let results ← books.foldlM (fun acc b => do
      let bk ← buildBook b.Title b.ISBN b.Content
      let rs ← searchForTerm bk searchTerm
      pure (acc ++ rs)) ([] : List SearchResult)
    pure ⟨searchTerm, results⟩

/-- `findSearchTermInBooks` including its throw on a non-string term. -/
def findSearchTermInBooksJs (searchTerm : JsValue) (books : List RawBook) :
    Except JsError SearchOutput :=
  match searchTerm with
  | .str s => findSearchTermInBooks s books
  | .other => .error .termNotString

deriving instance DecidableEq for Except

/-!  Helper lemmas about `takeWhile`, `dropWhile` and the tokenizer. -/

/-- A head surviving `dropWhile` fails the predicate. -/
theorem head_dropWhile_false {p : Char → Bool} :
    ∀ {l : List Char} {a : Char}, (l.dropWhile p).head? = some a → p a = false := by
  intro l
  induction l with
  | nil => intro a h; simp [List.dropWhile] at h
  | cons x t ih =>
    intro a h
    rw [List.dropWhile_cons] at h
    by_cases hx : p x
    · rw [if_pos hx] at h; exact ih h
    · rw [if_neg hx] at h
      simp at h
      rw [← h]
      simpa using hx

/-- A list whose head fails the predicate has an empty `takeWhile`. -/
theorem takeWhile_eq_nil_of_head {p : Char → Bool} {l : List Char}
    (h : ∀ a, l.head? = some a → p a = false) : l.takeWhile p = [] := by
  cases l with
  | nil => rfl
  | cons x t =>
    rw [List.takeWhile_cons, if_neg]
    simp [h x rfl]

/-- `takeWhile` passes over a block that wholly satisfies the predicate. -/
theorem takeWhile_append_of_all {p : Char → Bool} {l₁ l₂ : List Char}
    (h : ∀ x ∈ l₁, p x = true) : (l₁ ++ l₂).takeWhile p = l₁ ++ l₂.takeWhile p := by
  induction l₁ with
  | nil => rfl
  | cons x t ih =>
    rw [List.cons_append, List.takeWhile_cons, if_pos (h x (by simp)), List.cons_append,
      ih (fun y hy => h y (by simp [hy]))]

/-- `dropWhile` stops inside a block containing a predicate failure. -/
theorem dropWhile_append_of_exists {p : Char → Bool} {l₁ l₂ : List Char}
    (h : ∃ x ∈ l₁, p x = false) : (l₁ ++ l₂).dropWhile p = l₁.dropWhile p ++ l₂ := by
  induction l₁ with
  | nil => obtain ⟨x, hx, _⟩ := h; simp at hx
  | cons y t ih =>
    by_cases hy : p y
    · rw [List.cons_append, List.dropWhile_cons, if_pos hy, List.dropWhile_cons, if_pos hy]
      apply ih
      obtain ⟨x, hx, hpx⟩ := h
      rcases List.mem_cons.mp hx with h1 | h1
      · exact absurd (h1 ▸ hy) (by simp [hpx])
      · exact ⟨x, h1, hpx⟩
    · rw [List.cons_append, List.dropWhile_cons, if_neg hy, List.dropWhile_cons, if_neg hy,
        List.cons_append]

/-- `dropWhile` keeps a last element that fails the predicate. -/
theorem getLast_dropWhile {p : Char → Bool} :
    ∀ {l : List Char} {a : Char}, l.getLast? = some a → p a = false →
      l.dropWhile p ≠ [] ∧ (l.dropWhile p).getLast? = some a := by
  intro l
  induction l with
  | nil => intro a h _; simp at h
  | cons x t ih =>
    intro a h hpa
    by_cases hx : p x
    · cases t with
      | nil =>
        simp at h
        subst h
        rw [hx] at hpa
        exact Bool.noConfusion hpa
      | cons y u =>
        rw [List.getLast?_cons_cons] at h
        rw [List.dropWhile_cons, if_pos hx]
        exact ih h hpa
    · rw [List.dropWhile_cons, if_neg hx]
      exact ⟨by simp, h⟩

/-- Tokenizing a text whose head is a separator skips the separator. -/
theorem tokenize_cons_of_not_word {c : Char} {cs : List Char} (hc : isWordChar c = false) :
    tokenize (c :: cs) = tokenize cs := by
  simp [tokenize, tokenizeAux, hc]

/-- Running `tokenizeAux` with a nonempty pending run produces that run
extended by the leading word characters, then the remaining tokens. -/
theorem tokenizeAux_acc_ne_nil :
    ∀ (s acc : List Char), acc ≠ [] →
      tokenizeAux s acc =
        (acc.reverse ++ s.takeWhile isWordChar) :: tokenize (s.dropWhile isWordChar) := by
  intro s
  induction s with
  | nil =>
    intro acc h
    simp [tokenizeAux, tokenize, List.isEmpty_iff, h]
  | cons c cs ih =>
    intro acc h
    by_cases hc : isWordChar c
    · rw [tokenizeAux, if_pos hc, ih (c :: acc) (by simp), List.takeWhile_cons, if_pos hc,
        List.dropWhile_cons, if_pos hc]
      simp
    · rw [tokenizeAux, if_neg hc, if_neg (by simp [List.isEmpty_iff, h]), List.takeWhile_cons,
        if_neg hc, List.dropWhile_cons, if_neg hc, List.append_nil,
        tokenize_cons_of_not_word (by simpa using hc)]
      rfl

/-- Tokenizing a text whose head is a word character produces the leading
maximal run, then the tokens of the remainder. -/
theorem tokenize_cons_of_word {c : Char} {cs : List Char} (hc : isWordChar c = true) :
    tokenize (c :: cs) =
      (c :: cs.takeWhile isWordChar) :: tokenize (cs.dropWhile isWordChar) := by
  rw [tokenize, tokenizeAux, if_pos hc, tokenizeAux_acc_ne_nil cs [c] (by simp)]
  rfl

/-- The spec-side reading of tokenization: `term` occurs in `s` as a
nonempty maximal run of word characters — every character of `term` is a
word character and the neighbouring characters of the occurrence, when
they exist, are separators. -/
def IsMaxRun (term s : List Char) : Prop :=
  term ≠ [] ∧ (∀ c ∈ term, isWordChar c = true) ∧
  ∃ pre post, s = pre ++ term ++ post ∧
    (∀ c, pre.getLast? = some c → isWordChar c = false) ∧
    (∀ c, post.head? = some c → isWordChar c = false)

/-- The tokens of a text are exactly its maximal word-character runs. -/
theorem mem_tokenize_iff : ∀ (s term : List Char), term ∈ tokenize s ↔ IsMaxRun term s
  | [], term => by
    constructor
    · intro h
      simp [tokenize, tokenizeAux] at h
    · rintro ⟨hne, -, pre, post, heq, -, -⟩
      rcases term with _ | ⟨b, ts⟩
      · exact absurd rfl hne
      · rcases pre with _ | ⟨a, pr⟩ <;> simp at heq
  | c :: cs, term => by
    by_cases hc : isWordChar c = true
    · rw [tokenize_cons_of_word hc, List.mem_cons,
        mem_tokenize_iff (cs.dropWhile isWordChar) term]
      constructor
      · rintro (rfl | hmr)
        · refine ⟨by simp, ?_, [], cs.dropWhile isWordChar, ?_, by simp, ?_⟩
          · intro x hx
            rcases List.mem_cons.mp hx with rfl | hx2
            · exact hc
            · exact List.mem_takeWhile_imp hx2
          · simp [List.takeWhile_append_dropWhile]
          · intro x hx
            exact head_dropWhile_false hx
        · obtain ⟨hne, hall, pre, post, heq, hpre, hpost⟩ := hmr
          have hpre_ne : pre ≠ [] := by
            intro h0
            subst h0
            rcases term with _ | ⟨b, ts⟩
            · exact hne rfl
            · have hb : isWordChar b = true := hall b (by simp)
              have hh : (cs.dropWhile isWordChar).head? = some b := by
                rw [heq]
                simp
              have := head_dropWhile_false hh
              rw [hb] at this
              exact Bool.noConfusion this
          refine ⟨hne, hall, (c :: cs.takeWhile isWordChar) ++ pre, post, ?_, ?_, hpost⟩
          · have hsplit : c :: cs =
                c :: (cs.takeWhile isWordChar ++ cs.dropWhile isWordChar) := by
              rw [List.takeWhile_append_dropWhile]
            rw [heq] at hsplit
            rw [hsplit]
            simp [List.append_assoc]
          · intro x hx
            rw [List.getLast?_append_of_ne_nil _ hpre_ne] at hx
            exact hpre x hx
      · rintro ⟨hne, hall, pre, post, heq, hpre, hpost⟩
        rcases pre with _ | ⟨d, pr⟩
        · left
          rcases term with _ | ⟨b, ts⟩
          · exact absurd rfl hne
          · simp only [List.nil_append, List.cons_append, List.cons.injEq] at heq
            obtain ⟨rfl, hcs⟩ := heq
            have hts : ∀ x ∈ ts, isWordChar x = true := fun x hx => hall x (by simp [hx])
            rw [hcs, takeWhile_append_of_all hts, takeWhile_eq_nil_of_head hpost,
              List.append_nil]
        · right
          simp only [List.cons_append, List.cons.injEq] at heq
          obtain ⟨rfl, hcs⟩ := heq
          have hpr_ne : pr ≠ [] := by
            intro h0
            subst h0
            have := hpre c (by simp)
            rw [hc] at this
            exact Bool.noConfusion this
          obtain ⟨lc, hlc⟩ : ∃ lc, pr.getLast? = some lc := by
            cases hq : pr.getLast? with
            | none => exact absurd (List.getLast?_eq_none_iff.mp hq) hpr_ne
            | some lc => exact ⟨lc, rfl⟩
          have hlcf : isWordChar lc = false := by
            apply hpre
            rcases pr with _ | ⟨p0, ps⟩
            · exact absurd rfl hpr_ne
            · rw [List.getLast?_cons_cons]
              exact hlc
          have hlcm : lc ∈ pr := List.mem_of_mem_getLast? hlc
          have hdrop : cs.dropWhile isWordChar = pr.dropWhile isWordChar ++ (term ++ post) := by
            rw [hcs, List.append_assoc]
            exact dropWhile_append_of_exists ⟨lc, hlcm, hlcf⟩
          obtain ⟨hdne, hdlast⟩ := getLast_dropWhile (p := isWordChar) hlc hlcf
          refine ⟨hne, hall, pr.dropWhile isWordChar, post, ?_, ?_, hpost⟩
          · rw [hdrop, List.append_assoc]
          · intro x hx
            rw [hdlast] at hx
            injection hx with hx
            rw [← hx]
            exact hlcf
    · rw [tokenize_cons_of_not_word (by simpa using hc), mem_tokenize_iff cs term]
      constructor
      · rintro ⟨hne, hall, pre, post, heq, hpre, hpost⟩
        refine ⟨hne, hall, c :: pre, post, by simp [heq], ?_, hpost⟩
        intro x hx
        rcases pre with _ | ⟨p0, ps⟩
        · simp at hx
          rw [← hx]
          simpa using hc
        · rw [List.getLast?_cons_cons] at hx
          exact hpre x hx
      · rintro ⟨hne, hall, pre, post, heq, hpre, hpost⟩
        rcases pre with _ | ⟨d, pr⟩
        · rcases term with _ | ⟨b, ts⟩
          · exact absurd rfl hne
          · simp only [List.nil_append, List.cons_append, List.cons.injEq] at heq
            obtain ⟨rfl, -⟩ := heq
            have := hall c (by simp)
            exact absurd this (by simpa using hc)
        · simp only [List.cons_append, List.cons.injEq] at heq
          obtain ⟨rfl, hcs⟩ := heq
          refine ⟨hne, hall, pr, post, hcs, ?_, hpost⟩
          intro x hx
          apply hpre
          rcases pr with _ | ⟨p0, ps⟩
          · simp at hx
          · rw [List.getLast?_cons_cons]
            exact hx
  termination_by s _ => s.length
  decreasing_by
  · have := (List.dropWhile_sublist (l := cs) isWordChar).length_le
    simp only [List.length_cons]
    omega
  · simp [List.length_cons]

/-!  Helper lemmas about the hyphen-break check. -/

/-- Complete characterization of a successful hyphen-break check: the
next line exists, the current line ends with a hyphen, and the search
term is the last word of the current line with its first hyphen removed
followed by exactly the first word of the next line. -/
theorem searchForLineBreakedTerm_ok_true_iff (searchTerm currentLineText : List Char)
    (sub : Option (List Char)) :
    searchForLineBreakedTerm searchTerm currentLineText sub = .ok true ↔
      ∃ s, sub = some s ∧ ['-'].isSuffixOf currentLineText = true ∧
        ∃ lastWord, (tokenize currentLineText).getLast? = some lastWord ∧
          ∃ rest, searchTerm = removeFirstHyphen lastWord ++ rest ∧
            (tokenize s).head? = some rest := by
  cases sub with
  | none => simp [searchForLineBreakedTerm]
  | some s =>
    rw [searchForLineBreakedTerm]
    by_cases hsuf : ['-'].isSuffixOf currentLineText
    · rw [if_neg (by simp [hsuf])]
      cases hlast : (tokenize currentLineText).getLast? with
      | none => simp [hsuf]
      | some lastWord =>
        dsimp only
        by_cases hpre : (removeFirstHyphen lastWord).isPrefixOf searchTerm
        · rw [if_pos hpre]
          cases hhead : (tokenize s).head? with
          | none => simp [hsuf, hhead]
          | some firstWord =>
            constructor
            · intro h
              have hb : (List.drop (removeFirstHyphen lastWord).length searchTerm
                  == firstWord) = true := by
                injection h
              have heq2 : List.drop (removeFirstHyphen lastWord).length searchTerm =
                  firstWord := beq_iff_eq.mp hb
              obtain ⟨t, ht⟩ := List.isPrefixOf_iff_prefix.mp hpre
              refine ⟨s, rfl, hsuf, lastWord, rfl, firstWord, ?_, hhead⟩
              rw [← heq2, ← ht, List.drop_left]
            · rintro ⟨s2, hs2, -, lw, hlw, rest, hterm, hrest⟩
              injection hs2 with hs2
              subst hs2
              injection hlw with hlw
              subst hlw
              subst hterm
              rw [hhead] at hrest
              injection hrest with hrest
              subst hrest
              rw [List.drop_left]
              simp
        · rw [if_neg hpre]
          constructor
          · intro h
            exact absurd h (by simp)
          · rintro ⟨s2, hs2, -, lw, hlw, rest, hterm, -⟩
            injection hlw with hlw
            subst hlw
            subst hterm
            exact absurd (List.isPrefixOf_iff_prefix.mpr ⟨rest, rfl⟩) hpre
    · rw [if_pos (by simp [hsuf])]
      simp [hsuf]

/-- `jsIncludes` decides contiguous-substring containment. -/
theorem jsIncludes_iff_substring (hay needle : List Char) :
    jsIncludes hay needle = true ↔ needle <:+: hay := by
  induction hay with
  | nil =>
    rw [jsIncludes, List.isEmpty_iff]
    constructor
    · intro h; simp [h]
    · intro h; simp [List.eq_nil_of_sublist_nil h.sublist]
  | cons a t ih =>
    rw [jsIncludes, Bool.or_eq_true, ih, List.infix_cons_iff, List.isPrefixOf_iff_prefix]

/-- Case analysis of `Book.#addSearchResult`: a line contributes no
match, one match at its own coordinate, or — exactly when the
hyphen-break check succeeds — the pair of matches at its own coordinate
and at the next line's coordinate on the same page, which requires a
stored next line and a trailing hyphen. -/
theorem addSearchResult_cases (entries : List PageLineText) (isbn : List Char)
    (plt : PageLineText) (term : List Char) (rs : List SearchResult)
    (h : addSearchResult entries isbn plt term = .ok rs) :
    rs = [] ∨ rs = [⟨plt.page, plt.line, isbn⟩] ∨
      (rs = [⟨plt.page, plt.line, isbn⟩, ⟨plt.page, plt.line + 1, isbn⟩] ∧
        (∃ q, contentLookup entries plt.page (plt.line + 1) = some q) ∧
        ['-'].isSuffixOf plt.text = true) := by
  dsimp only [addSearchResult] at h
  by_cases h1 : (tokenize plt.text).contains term
  · rw [if_pos h1] at h
    injection h with h
    right; left; exact h.symm
  · rw [if_neg h1] at h
    by_cases h2 : (jsIncludes term [' '] && jsIncludes plt.text term) = true
    · rw [if_pos h2] at h
      injection h with h
      right; left; exact h.symm
    · rw [if_neg h2] at h
      cases hlb : searchForLineBreakedTerm term plt.text
          ((contentLookup entries plt.page (plt.line + 1)).map (·.text)) with
      | error e => rw [hlb] at h; cases h
      | ok b =>
        cases b with
        | false => rw [hlb] at h; injection h with h; left; exact h.symm
        | true =>
          rw [hlb] at h
          injection h with h
          obtain ⟨s, hs, hsuf, -⟩ := (searchForLineBreakedTerm_ok_true_iff _ _ _).mp hlb
          obtain ⟨q, hq, -⟩ := Option.map_eq_some'.mp hs
          exact Or.inr (Or.inr ⟨h.symm, ⟨q, hq⟩, hsuf⟩)

/-- The phrase branch of `Book.#addSearchResult`: if the exact-word test
failed, the term has a space and the line text contains it, exactly one
match at this line's coordinate is produced. -/
theorem addSearchResult_phrase (entries : List PageLineText) (isbn : List Char)
    (plt : PageLineText) (term : List Char)
    (h1 : (tokenize plt.text).contains term = false)
    (h2 : jsIncludes term [' '] = true)
    (h3 : jsIncludes plt.text term = true) :
    addSearchResult entries isbn plt term = .ok [⟨plt.page, plt.line, isbn⟩] := by
  dsimp only [addSearchResult]
  rw [if_neg (by simp only [h1]; simp), if_pos (by simp [h2, h3])]

/-!  Which errors each operation can produce. -/

/-- The hyphen-break check can only throw the `TypeError` of calling a
method on a `null` match result. -/
theorem searchForLineBreakedTerm_error (term cur : List Char) (sub : Option (List Char))
    (e : JsError) (h : searchForLineBreakedTerm term cur sub = .error e) : e = .typeError := by
  cases sub with
  | none => exact absurd h (by simp [searchForLineBreakedTerm])
  | some s =>
    rw [searchForLineBreakedTerm] at h
    by_cases hsuf : ['-'].isSuffixOf cur
    · rw [if_neg (by simp [hsuf])] at h
      cases hlast : (tokenize cur).getLast? with
      | none =>
        rw [hlast] at h
        injection h with h
        exact h.symm
      | some lastWord =>
        rw [hlast] at h
        dsimp only at h
        by_cases hpre : (removeFirstHyphen lastWord).isPrefixOf term
        · rw [if_pos hpre] at h
          cases hhead : (tokenize s).head? with
          | none =>
            rw [hhead] at h
            injection h with h
            exact h.symm
          | some firstWord => rw [hhead] at h; cases h
        · rw [if_neg hpre] at h; cases h
    · rw [if_pos (by simp [hsuf])] at h; cases h

/-- A line's processing can only throw the hyphen-break `TypeError`. -/
theorem addSearchResult_error (entries : List PageLineText) (isbn : List Char)
    (plt : PageLineText) (term : List Char) (e : JsError)
    (h : addSearchResult entries isbn plt term = .error e) : e = .typeError := by
  dsimp only [addSearchResult] at h
  by_cases h1 : (tokenize plt.text).contains term
  · rw [if_pos h1] at h; cases h
  · rw [if_neg h1] at h
    by_cases h2 : (jsIncludes term [' '] && jsIncludes plt.text term) = true
    · rw [if_pos h2] at h; cases h
    · rw [if_neg h2] at h
      cases hlb : searchForLineBreakedTerm term plt.text
          ((contentLookup entries plt.page (plt.line + 1)).map (·.text)) with
      | error e2 =>
        rw [hlb] at h
        injection h with h
        exact h ▸ searchForLineBreakedTerm_error _ _ _ _ hlb
      | ok b => rw [hlb] at h; cases b <;> cases h

/-- An error of a monadic fold over `Except` comes from one of the step
applications. -/
theorem foldlM_except_error {α β : Type} (f : β → α → Except JsError β)
    (P : JsError → Prop) :
    ∀ (l : List α) (b : β) (e : JsError),
      (∀ b2 a, a ∈ l → ∀ e2, f b2 a = .error e2 → P e2) →
      l.foldlM f b = .error e → P e := by
  intro l
  induction l with
  | nil => intro b e _ h; exact Except.noConfusion h
  | cons x xs ih =>
    intro b e hf h
    have hx : (x :: xs).foldlM f b = f b x >>= fun b2 => xs.foldlM f b2 := rfl
    rw [hx] at h
    cases hfb : f b x with
    | error e2 =>
      rw [hfb] at h
      injection h with h
      exact h ▸ hf b x (by simp) e2 hfb
    | ok b2 =>
      rw [hfb] at h
      exact ih b2 e (fun b3 a ha => hf b3 a (by simp [ha])) h

/-- `Book.searchForTerm` can only throw the hyphen-break `TypeError`. -/
theorem searchForTerm_error (bk : Book) (term : List Char) (e : JsError)
    (h : searchForTerm bk term = .error e) : e = .typeError := by
  rw [searchForTerm] at h
  refine foldlM_except_error _ (· = .typeError) _ _ _ ?_ h
  intro acc p _ e2 h2
  refine foldlM_except_error _ (· = .typeError) _ _ _ ?_ h2
  intro acc2 l _ e3 h3
  cases hlk : contentLookup bk.entries p l with
  | none =>
    rw [hlk] at h3
    dsimp only at h3
    exact Except.noConfusion h3
  | some plt =>
    rw [hlk] at h3
    dsimp only at h3
    cases har : addSearchResult bk.entries bk.isbn plt term with
    | error e4 =>
      rw [har] at h3
      have h4 : (Except.error e4 : Except JsError (List SearchResult)) = .error e3 := h3
      injection h4 with h4
      exact h4 ▸ addSearchResult_error _ _ _ _ _ har
    | ok rs =>
      rw [har] at h3
      have h4 : (Except.ok (acc2 ++ rs) : Except JsError (List SearchResult)) = .error e3 := h3
      exact Except.noConfusion h4

/-!  Helper lemmas about index construction. -/

/-- The stored line a valid raw entry produces. -/
def mkRecord (e : RawScanLine) : PageLineText :=
  ⟨e.Page, e.Line, jsTrim e.Text⟩

/-- The coordinate of a stored line. -/
def coordPLT (q : PageLineText) : Int × Int :=
  (q.page, q.line)

/-- The coordinate of a raw entry. -/
def coordRaw (e : RawScanLine) : Int × Int :=
  (e.Page, e.Line)

theorem mkPageLineText_ok_of_valid (e : RawScanLine) (h1 : 0 < e.Page) (h2 : 0 < e.Line) :
    mkPageLineText e.Page e.Line e.Text = .ok (mkRecord e) := by
  rw [mkPageLineText, if_neg (by simp [validatePageOrLineNum, h1]),
    if_neg (by simp [validatePageOrLineNum, h2])]
  rfl

theorem mkPageLineText_ok_inv (p l : Int) (t : List Char) (plt : PageLineText)
    (h : mkPageLineText p l t = .ok plt) : plt = ⟨p, l, jsTrim t⟩ ∧ 0 < p ∧ 0 < l := by
  rw [mkPageLineText] at h
  by_cases h1 : validatePageOrLineNum p
  · rw [if_neg (by simp [h1])] at h
    by_cases h2 : validatePageOrLineNum l
    · rw [if_neg (by simp [h2])] at h
      injection h with h
      exact ⟨h.symm, by simpa [validatePageOrLineNum] using h1,
        by simpa [validatePageOrLineNum] using h2⟩
    · rw [if_pos (by simp [h2])] at h
      cases h
  · rw [if_pos (by simp [h1])] at h
    cases h

theorem mkPageLineText_error (p l : Int) (t : List Char) (e : JsError)
    (h : mkPageLineText p l t = .error e) : e = .invalidPageNum ∨ e = .invalidLineNum := by
  rw [mkPageLineText] at h
  by_cases h1 : validatePageOrLineNum p
  · rw [if_neg (by simp [h1])] at h
    by_cases h2 : validatePageOrLineNum l
    · rw [if_neg (by simp [h2])] at h
      cases h
    · rw [if_pos (by simp [h2])] at h
      injection h with h
      exact Or.inr h.symm
  · rw [if_pos (by simp [h1])] at h
    injection h with h
    exact Or.inl h.symm

theorem buildContent_cons_ok (e : RawScanLine) (rest : List RawScanLine)
    (acc : List PageLineText) (plt : PageLineText)
    (hmk : mkPageLineText e.Page e.Line e.Text = .ok plt) :
    buildContent (e :: rest) acc =
      if (acc.find? (fun q => q.page == plt.page && q.line == plt.line)).isSome then
        .error (.duplicateEntry plt.page plt.line)
      else buildContent rest (acc ++ [plt]) := by
  rw [buildContent, hmk]
  rfl

theorem buildContent_cons_err (e : RawScanLine) (rest : List RawScanLine)
    (acc : List PageLineText) (e2 : JsError)
    (hmk : mkPageLineText e.Page e.Line e.Text = .error e2) :
    buildContent (e :: rest) acc = .error e2 := by
  rw [buildContent, hmk]
  rfl

theorem find?_coord_isSome_iff (acc : List PageLineText) (p l : Int) :
    (acc.find? (fun q => q.page == p && q.line == l)).isSome = true ↔
      (p, l) ∈ acc.map coordPLT := by
  rw [List.find?_isSome]
  constructor
  · rintro ⟨x, hx, hpx⟩
    simp only [Bool.and_eq_true, beq_iff_eq] at hpx
    exact List.mem_map.mpr ⟨x, hx, by simp [coordPLT, hpx.1, hpx.2]⟩
  · intro hmem
    obtain ⟨x, hx, hcx⟩ := List.mem_map.mp hmem
    refine ⟨x, hx, ?_⟩
    simp only [coordPLT, Prod.mk.injEq] at hcx
    simp [hcx.1, hcx.2]

/-- What a successful construction run yields: the accumulated entries
are the trimmed records of the raw entries in order, every raw entry was
valid, and coordinate uniqueness is preserved. -/
theorem buildContent_ok :
    ∀ (raw : List RawScanLine) (acc out : List PageLineText),
      buildContent raw acc = .ok out →
      out = acc ++ raw.map mkRecord ∧
      (∀ e ∈ raw, 0 < e.Page ∧ 0 < e.Line) ∧
      ((acc.map coordPLT).Nodup → (out.map coordPLT).Nodup) := by
  intro raw
  induction raw with
  | nil =>
    intro acc out h
    rw [buildContent] at h
    injection h with h
    simp [h]
  | cons e rest ih =>
    intro acc out h
    cases hmk : mkPageLineText e.Page e.Line e.Text with
    | error e2 =>
      rw [buildContent_cons_err e rest acc e2 hmk] at h
      cases h
    | ok plt =>
      obtain ⟨hplt, hp, hl⟩ := mkPageLineText_ok_inv _ _ _ _ hmk
      rw [buildContent_cons_ok e rest acc plt hmk] at h
      by_cases hdup : (acc.find? (fun q => q.page == plt.page && q.line == plt.line)).isSome
      · rw [if_pos hdup] at h
        cases h
      · rw [if_neg hdup] at h
        obtain ⟨hout, hval, hnd⟩ := ih (acc ++ [plt]) out h
        refine ⟨?_, ?_, ?_⟩
        · rw [hout, hplt]
          simp [mkRecord]
        · intro e2 he2
          rcases List.mem_cons.mp he2 with rfl | he2
          · exact ⟨hp, hl⟩
          · exact hval e2 he2
        · intro hacc
          apply hnd
          rw [List.map_append]
          refine List.Nodup.append hacc (by simp) ?_
          have hnotin : (plt.page, plt.line) ∉ acc.map coordPLT := by
            intro hmem
            exact hdup ((find?_coord_isSome_iff acc plt.page plt.line).mpr hmem)
          simpa [List.disjoint_singleton, coordPLT] using hnotin

/-- Which errors construction of the content table can produce. -/
theorem buildContent_error :
    ∀ (raw : List RawScanLine) (acc : List PageLineText) (e : JsError),
      buildContent raw acc = .error e →
      e = .invalidPageNum ∨ e = .invalidLineNum ∨ ∃ p l, e = .duplicateEntry p l := by
  intro raw
  induction raw with
  | nil =>
    intro acc e h
    rw [buildContent] at h
    cases h
  | cons x rest ih =>
    intro acc e h
    cases hmk : mkPageLineText x.Page x.Line x.Text with
    | error e2 =>
      rw [buildContent_cons_err x rest acc e2 hmk] at h
      injection h with h
      rcases mkPageLineText_error _ _ _ _ hmk with h2 | h2 <;> simp [← h, h2]
    | ok plt =>
      rw [buildContent_cons_ok x rest acc plt hmk] at h
      by_cases hdup : (acc.find? (fun q => q.page == plt.page && q.line == plt.line)).isSome
      · rw [if_pos hdup] at h
        injection h with h
        exact Or.inr (Or.inr ⟨plt.page, plt.line, h.symm⟩)
      · rw [if_neg hdup] at h
        exact ih (acc ++ [plt]) e h

/-- An all-valid entry list with a repeated coordinate always drives
construction into the duplicate-entry error. -/
theorem buildContent_duplicate :
    ∀ (raw : List RawScanLine) (acc : List PageLineText),
      (∀ e ∈ raw, 0 < e.Page ∧ 0 < e.Line) →
      (acc.map coordPLT).Nodup →
      ¬ (acc.map coordPLT ++ raw.map coordRaw).Nodup →
      ∃ p l, buildContent raw acc = .error (.duplicateEntry p l) := by
  intro raw
  induction raw with
  | nil =>
    intro acc _ hnd hbad
    exact absurd (by simpa using hnd) hbad
  | cons e rest ih =>
    intro acc hval hnd hbad
    have hmk := mkPageLineText_ok_of_valid e (hval e (by simp)).1 (hval e (by simp)).2
    rw [buildContent_cons_ok e rest acc (mkRecord e) hmk]
    by_cases hdup : (acc.find? (fun q => q.page == (mkRecord e).page &&
        q.line == (mkRecord e).line)).isSome
    · exact ⟨(mkRecord e).page, (mkRecord e).line, by rw [if_pos hdup]⟩
    · rw [if_neg hdup]
      have hnotin : ((mkRecord e).page, (mkRecord e).line) ∉ acc.map coordPLT := by
        intro hmem
        exact hdup ((find?_coord_isSome_iff acc _ _).mpr hmem)
      refine ih (acc ++ [mkRecord e]) (fun e2 he2 => hval e2 (by simp [he2])) ?_ ?_
      · rw [List.map_append]
        refine List.Nodup.append hnd (by simp) ?_
        simpa [List.disjoint_singleton, coordPLT] using hnotin
      · intro hgood
        apply hbad
        have : acc.map coordPLT ++ (e :: rest).map coordRaw =
            (acc ++ [mkRecord e]).map coordPLT ++ rest.map coordRaw := by
          simp [coordPLT, coordRaw, mkRecord]
        rw [this]
        exact hgood

/-- Inversion of a successful `Book` construction. -/
theorem buildBook_ok_inv (title isbn : List Char) (content : List RawScanLine) (bk : Book)
    (h : buildBook title isbn content = .ok bk) :
    bk.title = title ∧ bk.isbn = isbn ∧ buildContent content [] = .ok bk.entries := by
  rw [buildBook] at h
  by_cases ht : title.isEmpty
  · rw [if_pos ht] at h
    cases h
  · rw [if_neg ht] at h
    by_cases hi : validateISBN isbn
    · rw [if_neg (by simp [hi])] at h
      cases hbc : buildContent content [] with
      | error e2 => rw [hbc] at h; cases h
      | ok entries =>
        rw [hbc] at h
        injection h with h
        rw [← h]
        exact ⟨rfl, rfl, rfl⟩
    · rw [if_pos (by simp [hi])] at h
      cases h

/-- Which errors `Book` construction can produce. -/
theorem buildBook_error (title isbn : List Char) (content : List RawScanLine) (e : JsError)
    (h : buildBook title isbn content = .error e) :
    e = .emptyTitle ∨ e = .invalidIsbn ∨ e = .invalidPageNum ∨ e = .invalidLineNum ∨
      ∃ p l, e = .duplicateEntry p l := by
  rw [buildBook] at h
  by_cases ht : title.isEmpty
  · rw [if_pos ht] at h
    injection h with h
    exact Or.inl h.symm
  · rw [if_neg ht] at h
    by_cases hi : validateISBN isbn
    · rw [if_neg (by simp [hi])] at h
      cases hbc : buildContent content [] with
      | error e2 =>
        rw [hbc] at h
        injection h with h
        rcases buildContent_error content [] e2 hbc with h2 | h2 | h2 <;> simp [← h, h2]
      | ok entries => rw [hbc] at h; cases h
    · rw [if_pos (by simp [hi])] at h
      injection h with h
      exact Or.inr (Or.inl h.symm)

/-- In a table with pairwise distinct coordinates, looking up a stored
line's own coordinate returns that line. -/
theorem contentLookup_of_mem_nodup :
    ∀ (entries : List PageLineText), (entries.map coordPLT).Nodup →
      ∀ x ∈ entries, contentLookup entries x.page x.line = some x := by
  intro entries
  induction entries with
  | nil => intro _ x hx; simp at hx
  | cons y t ih =>
    intro hnd x hx
    rcases List.mem_cons.mp hx with rfl | hx2
    · rw [contentLookup, List.find?_cons_of_pos t (by simp)]
    · rw [contentLookup]
      have hy : ¬ (y.page == x.page && y.line == x.line) = true := by
        intro hc
        simp only [Bool.and_eq_true, beq_iff_eq] at hc
        have : coordPLT y ∈ t.map coordPLT := by
          rw [show coordPLT y = coordPLT x from by simp [coordPLT, hc.1, hc.2]]
          exact List.mem_map_of_mem coordPLT hx2
        rw [List.map_cons, List.nodup_cons] at hnd
        exact hnd.1 this
      rw [List.find?_cons_of_neg t hy]
      exact ih (by rw [List.map_cons, List.nodup_cons] at hnd; exact hnd.2) x hx2

/-!  The claims. -/

/-- The book used to exhibit the page-ordering defect: pages 2 and 10,
each holding the token `the` on its line 1. -/
def c1Book : RawBook :=
  ⟨"T".toList, "9780000528531".toList,
    [⟨2, 1, "the alpha".toList⟩, ⟨10, 1, "the beta".toList⟩]⟩

/-- C1: refuted on the code (code bug).  The sort comparator of
`Book.searchForTerm` compares only the first character of the
stringified keys, so page 10 is visited before page 2 and the matches
come back in descending page order, violating the required strictly
ascending (page, line) order. -/
theorem c1_page_order_bug :
    findSearchTermInBooks ("the".toList) [c1Book] =
      .ok ⟨"the".toList,
        [⟨10, 1, "9780000528531".toList⟩, ⟨2, 1, "9780000528531".toList⟩]⟩ ∧
    ¬ List.Chain' (fun r1 r2 : SearchResult =>
        r1.page < r2.page ∨ (r1.page = r2.page ∧ r1.line < r2.line))
      [⟨10, 1, "9780000528531".toList⟩, ⟨2, 1, "9780000528531".toList⟩] := by
  refine ⟨by decide, ?_⟩
  intro hch
  rcases (List.chain'_cons.mp hch).1 with h | h
  · exact absurd h (by decide)
  · exact absurd h.1 (by decide)

/-- C2: a line's processing records no match, one match at its own
coordinate (the exact and phrase paths), or — only when the hyphen-break
path fires — exactly the two matches at (page, line) and (page, line+1),
which requires a stored line at (page, line+1) and a trailing hyphen on
the current line's text. -/
theorem c2_match_paths (entries : List PageLineText) (isbn : List Char)
    (plt : PageLineText) (term : List Char) (rs : List SearchResult)
    (h : addSearchResult entries isbn plt term = .ok rs) :
    rs = [] ∨ rs = [⟨plt.page, plt.line, isbn⟩] ∨
      (rs = [⟨plt.page, plt.line, isbn⟩, ⟨plt.page, plt.line + 1, isbn⟩] ∧
        (∃ q, contentLookup entries plt.page (plt.line + 1) = some q) ∧
        ['-'].isSuffixOf plt.text = true) :=
  addSearchResult_cases entries isbn plt term rs h

/-- Witness for C2 at the hyphen-break input `The dark-` / `ness was`. -/
theorem c2_match_paths_witness :
    ([⟨31, 8, "9780000528531".toList⟩, ⟨31, 9, "9780000528531".toList⟩] :
        List SearchResult) = [] ∨
    ([⟨31, 8, "9780000528531".toList⟩, ⟨31, 9, "9780000528531".toList⟩] :
        List SearchResult) = [⟨31, 8, "9780000528531".toList⟩] ∨
    (([⟨31, 8, "9780000528531".toList⟩, ⟨31, 9, "9780000528531".toList⟩] :
        List SearchResult) =
      [⟨31, 8, "9780000528531".toList⟩, ⟨31, 8 + 1, "9780000528531".toList⟩] ∧
      (∃ q, contentLookup
        [⟨31, 8, "The dark-".toList⟩, ⟨31, 9, "ness was".toList⟩] 31 (8 + 1) = some q) ∧
      ['-'].isSuffixOf ("The dark-".toList) = true) :=
  c2_match_paths [⟨31, 8, "The dark-".toList⟩, ⟨31, 9, "ness was".toList⟩]
    ("9780000528531".toList) ⟨31, 8, "The dark-".toList⟩ ("darkness".toList)
    [⟨31, 8, "9780000528531".toList⟩, ⟨31, 9, "9780000528531".toList⟩] (by decide)

/-- The spec's reading of step (b) of the hyphen-break check: the last
tokenized word with its trailing hyphen stripped.  For comparison with
the implementation, which removes the first hyphen instead. -/
def stripTrailingHyphen (w : List Char) : List Char :=
  if w.getLast? = some '-' then w.dropLast else w

/-- C3: refuted as stated.  The implementation computes the tail with
`replace("-", "")`, which removes the first hyphen of the last word, not
the trailing one.  On current line `pre-owned-` with next line `toy`,
the query `preowned-toy` succeeds even  though it does not start with
the spec's tail `pre-owned`. -/
theorem c3_tail_counterexample :
    searchForLineBreakedTerm ("preowned-toy".toList) ("pre-owned-".toList)
        (some ("toy".toList)) = .ok true ∧
      (stripTrailingHyphen ((tokenize ("pre-owned-".toList)).getLastD [])).isPrefixOf
        ("preowned-toy".toList) = false := by
  constructor
  · decide
  · decide

/-- C3 (amended): the `tail` is the current line's last tokenized word
with its first hyphen occurrence removed (equal to stripping the
trailing hyphen whenever the last word has no interior hyphen); the
check succeeds exactly when the next line exists, the current line ends
with a hyphen, the query term starts with `tail`, and the remainder of
the query term equals the next line's first tokenized word exactly (not
merely an `endsWith` test). -/
theorem c3_hyphen_break_amended (searchTerm currentLineText : List Char)
    (sub : Option (List Char)) :
    searchForLineBreakedTerm searchTerm currentLineText sub = .ok true ↔
      ∃ s, sub = some s ∧ ['-'].isSuffixOf currentLineText = true ∧
        ∃ lastWord, (tokenize currentLineText).getLast? = some lastWord ∧
          ∃ rest, searchTerm = removeFirstHyphen lastWord ++ rest ∧
            (tokenize s).head? = some rest :=
  searchForLineBreakedTerm_ok_true_iff searchTerm currentLineText sub

/-- C4: the exact-word test succeeds exactly when the query term is one
of the line's tokenized words, i.e. occurs in the line as a maximal run
of word characters; a proper substring of a token or a term differing in
case therefore never passes this test. -/
theorem c4_exact_word_match (lineText term : List Char) :
    (tokenize lineText).contains term = true ↔ IsMaxRun term lineText := by
  rw [List.elem_iff]
  exact mem_tokenize_iff lineText term

/-- C5: when the exact-word test fails, a term containing a literal
space that occurs as a contiguous substring of the stored line text
produces exactly one match at this line's coordinate. -/
theorem c5_phrase_match (entries : List PageLineText) (isbn : List Char)
    (plt : PageLineText) (term : List Char)
    (h1 : term ∉ tokenize plt.text)
    (h2 : ' ' ∈ term)
    (h3 : term <:+: plt.text) :
    addSearchResult entries isbn plt term = .ok [⟨plt.page, plt.line, isbn⟩] := by
  apply addSearchResult_phrase
  · rw [Bool.eq_false_iff]
    intro hc
    exact h1 (List.elem_iff.mp hc)
  · apply (jsIncludes_iff_substring term [' ']).mpr
    obtain ⟨s, t, hst⟩ := List.mem_iff_append.mp h2
    exact ⟨s, t, by rw [hst]; simp⟩
  · exact (jsIncludes_iff_substring plt.text term).mpr h3

/-- Witness for C5 at the phrase input of the repository's tests. -/
theorem c5_phrase_match_witness :
    addSearchResult [] ("9780618260300".toList)
      ⟨1, 1, "This is a déjà vu story about a pre-owned toy with a résumé".toList⟩
      ("déjà vu".toList) = .ok [⟨1, 1, "9780618260300".toList⟩] :=
  c5_phrase_match [] ("9780618260300".toList)
    ⟨1, 1, "This is a déjà vu story about a pre-owned toy with a résumé".toList⟩
    ("déjà vu".toList) (by decide) (by decide) (by decide)

/-- C9: a successful construction stores, at each raw entry's
coordinate, exactly the entry's text trimmed of surrounding whitespace,
and looking the coordinate up returns it. -/
theorem c9_roundtrip (title isbn : List Char) (raw : List RawScanLine) (bk : Book)
    (h : buildBook title isbn raw = .ok bk) :
    ∀ e ∈ raw, contentLookup bk.entries e.Page e.Line = some ⟨e.Page, e.Line, jsTrim e.Text⟩ := by
  obtain ⟨-, -, hbc⟩ := buildBook_ok_inv _ _ _ _ h
  obtain ⟨hout, hval, hnd⟩ := buildContent_ok raw [] bk.entries hbc
  intro e he
  have hm : mkRecord e ∈ bk.entries := by
    rw [hout]
    simp only [List.nil_append]
    exact List.mem_map_of_mem mkRecord he
  exact contentLookup_of_mem_nodup bk.entries (hnd (by simp)) (mkRecord e) hm

/-- Witness for C9: text `"  hello  "` reads back trimmed. -/
theorem c9_roundtrip_witness :
    contentLookup [⟨5, 7, "hello".toList⟩] 5 7 = some ⟨5, 7, "hello".toList⟩ :=
  c9_roundtrip ("T".toList) ("9780000528531".toList) [⟨5, 7, "  hello  ".toList⟩]
    ⟨"T".toList, "9780000528531".toList, [⟨5, 7, "hello".toList⟩]⟩ (by decide)
    ⟨5, 7, "  hello  ".toList⟩ (by decide)

/-- The book used to exhibit the hyphen-break crash: a line ending with
a hyphen whose stored next line has no word characters. -/
def c10Book : RawBook :=
  ⟨"T".toList, "9780000528531".toList,
    [⟨1, 1, "The dark-".toList⟩, ⟨1, 2, "".toList⟩]⟩

/-- C10: refuted on the code (code bug).  With a validly constructed
book and the valid term `darkness`, the hyphen-break check calls
`.shift()` on the `null` that `match` returns for the empty next line,
so the search throws a `TypeError` instead of completing with no
match. -/
theorem c10_search_throws_bug :
    findSearchTermInBooks ("darkness".toList) [c10Book] = .error .typeError := by
  decide

/-- C6: refuted as stated.  The constructor validates and inserts entry
by entry, so an invalid entry occurring before the second occurrence of
a repeated coordinate aborts construction with a validation error, not
the duplicate-entry error: here the input contains two entries at the
coordinate (1, 1) and yet fails with the page-number validation error
raised for the intervening entry with page 0. -/
theorem c6_duplicate_counterexample :
    buildBook ("T".toList) ("9780000528531".toList)
      [⟨1, 1, "a".toList⟩, ⟨0, 5, "b".toList⟩, ⟨1, 1, "c".toList⟩] =
      .error .invalidPageNum := by
  decide

/-- C6 (amended): for a valid title and identifier, an input sequence of
raw entries each of which passes Line Record validation but containing
two entries with the same coordinate always fails construction entirely
with the duplicate-entry error, regardless of which duplicate appears
first; no entry is ever silently overwritten. -/
theorem c6_duplicate_amended (title isbn : List Char) (raw : List RawScanLine)
    (ht : title ≠ [])
    (hi : validateISBN isbn = true)
    (hv : ∀ e ∈ raw, 0 < e.Page ∧ 0 < e.Line)
    (hd : ¬ (raw.map coordRaw).Nodup) :
    ∃ p l, buildBook title isbn raw = .error (.duplicateEntry p l) := by
  obtain ⟨p, l, hpl⟩ := buildContent_duplicate raw [] hv (by simp) (by simpa using hd)
  refine ⟨p, l, ?_⟩
  rw [buildBook, if_neg (by simpa [List.isEmpty_iff] using ht),
    if_neg (by simp [hi]), hpl]
  rfl

/-- Witness for C6 (amended): all-valid entries with coordinate (1, 1)
repeated. -/
theorem c6_duplicate_amended_witness :
    ∃ p l, buildBook ("T".toList) ("9780000528531".toList)
      [⟨1, 1, "a".toList⟩, ⟨2, 3, "b".toList⟩, ⟨1, 1, "c".toList⟩] =
      .error (.duplicateEntry p l) :=
  c6_duplicate_amended ("T".toList) ("9780000528531".toList)
    [⟨1, 1, "a".toList⟩, ⟨2, 3, "b".toList⟩, ⟨1, 1, "c".toList⟩]
    (by decide) (by decide) (by decide) (by decide)

/-- Bind followed by a pure map, on `Except`. -/
theorem except_bind_pure_map {α β : Type} (x : Except JsError α) (g : α → β) :
    (do let a ← x; pure (g a) : Except JsError β) = x.map g := by
  cases x <;> rfl

/-- After term validation passes, the entry point is the book fold
followed by packaging into the result object. -/
theorem findSearchTermInBooks_eq_fold (term : List Char) (books : List RawBook)
    (hne : term ≠ []) (hctl : term.any isControlChar = false) :
    findSearchTermInBooks term books =
      (books.foldlM (fun (acc : List SearchResult) (b : RawBook) => do
          let bk ← buildBook b.Title b.ISBN b.Content
          let rs ← searchForTerm bk term
          pure (acc ++ rs)) ([] : List SearchResult)).map
        (fun results => ⟨term, results⟩) := by
  rw [findSearchTermInBooks, if_neg (by simp [List.isEmpty_iff, hne]),
    if_neg (by simp [hctl])]
  exact except_bind_pure_map _ _

/-- C7: the entry point rejects exactly the empty, non-string or
control-character-bearing terms with the corresponding validation
errors; no other input fails on those grounds; and any valid term
searched over an empty corpus succeeds with zero matches. -/
theorem c7_term_validation (term : List Char) (books : List RawBook) :
    (term = [] → findSearchTermInBooks term books = .error .termEmpty) ∧
    (term ≠ [] → term.any isControlChar = true →
      findSearchTermInBooks term books = .error .termControl) ∧
    (term ≠ [] → term.any isControlChar = false →
      ∀ e, findSearchTermInBooks term books = .error e →
        e ≠ .termEmpty ∧ e ≠ .termControl ∧ e ≠ .termNotString) ∧
    (term ≠ [] → term.any isControlChar = false →
      findSearchTermInBooks term [] = .ok ⟨term, []⟩) ∧
    findSearchTermInBooksJs .other books = .error .termNotString := by
  refine ⟨?_, ?_, ?_, ?_, rfl⟩
  · intro h
    subst h
    rfl
  · intro hne hctl
    rw [findSearchTermInBooks, if_neg (by simp [List.isEmpty_iff, hne]),
      if_pos (by simp [hctl])]
    rfl
  · intro hne hctl e he
    rw [findSearchTermInBooks_eq_fold term books hne hctl] at he
    cases hfold : books.foldlM (fun (acc : List SearchResult) (b : RawBook) => do
        let bk ← buildBook b.Title b.ISBN b.Content
        let rs ← searchForTerm bk term
        pure (acc ++ rs)) ([] : List SearchResult) with
    | ok r =>
      rw [hfold] at he
      exact Except.noConfusion he
    | error e2 =>
      rw [hfold] at he
      have he2 : (Except.error e2 : Except JsError SearchOutput) = .error e := he
      injection he2 with he2
      subst he2
      refine foldlM_except_error _
        (fun e3 => e3 ≠ .termEmpty ∧ e3 ≠ .termControl ∧ e3 ≠ .termNotString)
        books [] e2 ?_ hfold
      intro acc b hb e3 h3
      cases hbb : buildBook b.Title b.ISBN b.Content with
      | error e4 =>
        rw [hbb] at h3
        have h4 : (Except.error e4 : Except JsError (List SearchResult)) = .error e3 := h3
        injection h4 with h4
        subst h4
        rcases buildBook_error _ _ _ _ hbb with h | h | h | h | ⟨p, l, h⟩ <;>
          subst h <;> exact ⟨by simp, by simp, by simp⟩
      | ok bk =>
        rw [hbb] at h3
        have h5 : ((do
            let rs ← searchForTerm bk term
            pure (acc ++ rs)) : Except JsError (List SearchResult)) = .error e3 := h3
        cases hst : searchForTerm bk term with
        | error e6 =>
          rw [hst] at h5
          have h6 : (Except.error e6 : Except JsError (List SearchResult)) = .error e3 := h5
          injection h6 with h6
          subst h6
          have h7 := searchForTerm_error bk term e6 hst
          subst h7
          exact ⟨by simp, by simp, by simp⟩
        | ok rs =>
          rw [hst] at h5
          have h7 : (Except.ok (acc ++ rs) : Except JsError (List SearchResult)) =
            .error e3 := h5
          exact Except.noConfusion h7
  · intro hne hctl
    rw [findSearchTermInBooks_eq_fold term [] hne hctl]
    rfl

/-- Witness for C7: the valid term `x` over the empty corpus. -/
theorem c7_term_validation_witness :
    findSearchTermInBooks ("x".toList) [] = .ok ⟨"x".toList, []⟩ :=
  (c7_term_validation ("x".toList) []).2.2.2.1 (by decide) (by decide)

/-- `digitRun n` succeeds exactly on strings that start with `n` digits,
returning the remainder. -/
theorem digitRun_eq_some :
    ∀ (n : Nat) (s rest : List Char),
      digitRun n s = some rest ↔
        ∃ pre, s = pre ++ rest ∧ pre.length = n ∧ ∀ c ∈ pre, c.isDigit = true := by
  intro n
  induction n with
  | zero =>
    intro s rest
    constructor
    · intro h
      injection h with h
      exact ⟨[], by simp [h], rfl, by simp⟩
    · rintro ⟨pre, hs, hl, -⟩
      have hpre : pre = [] := List.length_eq_zero.mp hl
      subst hpre
      simp only [List.nil_append] at hs
      simp [digitRun, hs]
  | succ n ih =>
    intro s rest
    cases s with
    | nil =>
      constructor
      · intro h
        exact Option.noConfusion h
      · rintro ⟨pre, hs, hl, -⟩
        have hlen2 := congrArg List.length hs
        simp only [List.length_nil, List.length_append, hl] at hlen2
        omega
    | cons c cs =>
      rw [digitRun]
      by_cases hc : c.isDigit
      · rw [if_pos hc, ih cs rest]
        constructor
        · rintro ⟨pre, hcs, hl, hd⟩
          refine ⟨c :: pre, by simp [hcs], by simp [hl], ?_⟩
          intro x hx
          rcases List.mem_cons.mp hx with rfl | hx2
          · exact hc
          · exact hd x hx2
        · rintro ⟨pre, hs, hl, hd⟩
          cases pre with
          | nil => simp at hl
          | cons p ps =>
            simp only [List.cons_append, List.cons.injEq] at hs
            obtain ⟨rfl, hcs⟩ := hs
            exact ⟨ps, hcs, by simpa using hl, fun x hx => hd x (by simp [hx])⟩
      · rw [if_neg hc]
        constructor
        · intro h
          exact Option.noConfusion h
        · rintro ⟨pre, hs, hl, hd⟩
          cases pre with
          | nil => simp at hl
          | cons p ps =>
            simp only [List.cons_append, List.cons.injEq] at hs
            obtain ⟨rfl, -⟩ := hs
            exact absurd (hd c (by simp)) (by simpa using hc)

/-- The regex `^\d{10}(\d{3})?$` accepts exactly the all-digit strings
of length 10 or 13. -/
theorem validateISBN_iff (s : List Char) :
    validateISBN s = true ↔
      (s.length = 10 ∨ s.length = 13) ∧ ∀ c ∈ s, c.isDigit = true := by
  rw [validateISBN]
  cases h10 : digitRun 10 s with
  | none =>
    constructor
    · intro h
      exact Bool.noConfusion h
    · rintro ⟨hlen, hdig⟩
      have h1 : 10 ≤ s.length := by rcases hlen with h | h <;> omega
      have h2 : digitRun 10 s = some (s.drop 10) := by
        rw [digitRun_eq_some]
        exact ⟨s.take 10, (List.take_append_drop 10 s).symm,
          by rw [List.length_take]; omega,
          fun c hc => hdig c (List.mem_of_mem_take hc)⟩
      rw [h2] at h10
      exact Option.noConfusion h10
  | some rest =>
    dsimp only
    obtain ⟨pre, hs, hl, hd⟩ := (digitRun_eq_some 10 s rest).mp h10
    cases h3 : digitRun 3 rest with
    | none =>
      dsimp only
      constructor
      · intro h
        have hrest : rest = [] := by simpa [List.isEmpty_iff] using h
        subst hrest
        refine ⟨Or.inl (by simp [hs, hl]), ?_⟩
        intro c hc
        rw [hs] at hc
        simp only [List.append_nil] at hc
        exact hd c hc
      · rintro ⟨hlen, hdig⟩
        have hsl : s.length = 10 + rest.length := by simp [hs, hl]
        have hr : rest.length = 0 ∨ rest.length = 3 := by
          rcases hlen with h | h <;> omega
        rcases hr with hr | hr
        · simp [List.isEmpty_iff, List.length_eq_zero.mp hr]
        · have h4 : digitRun 3 rest = some [] := by
            rw [digitRun_eq_some]
            refine ⟨rest, by simp, hr, ?_⟩
            intro c hc
            exact hdig c (by rw [hs]; simp [hc])
          rw [h4] at h3
          exact Option.noConfusion h3
    | some r =>
      cases r with
      | nil =>
        dsimp only
        obtain ⟨pre2, hrest, hl2, hd2⟩ := (digitRun_eq_some 3 rest []).mp h3
        simp only [List.append_nil] at hrest
        constructor
        · intro _
          refine ⟨Or.inr (by simp [hs, hl, hrest, hl2]), ?_⟩
          intro c hc
          rw [hs] at hc
          rcases List.mem_append.mp hc with hc2 | hc2
          · exact hd c hc2
          · exact hd2 c (by rw [← hrest]; exact hc2)
        · intro _
          rfl
      | cons x xs =>
        dsimp only
        obtain ⟨pre2, hrest, hl2, -⟩ := (digitRun_eq_some 3 rest (x :: xs)).mp h3
        constructor
        · intro h
          have hrest2 : rest = [] := by simpa [List.isEmpty_iff] using h
          rw [hrest2] at hrest
          have hlen2 := congrArg List.length hrest
          simp only [List.length_nil, List.length_append, hl2, List.length_cons] at hlen2
          omega
        · rintro ⟨hlen, -⟩
          have hsl : s.length = 10 + rest.length := by simp [hs, hl]
          have hrl : rest.length = 3 + (xs.length + 1) := by
            rw [hrest]
            simp [hl2]
          rcases hlen with h | h <;> omega

/-- C8: as a pure predicate on strings, the identifier validator accepts
exactly the strings of exactly 10 or exactly 13 ASCII decimal digits —
hence rejects every other length and every string containing a hyphen or
space — and non-string input never validates (the source throws for
it). -/
theorem c8_isbn_validator :
    (∀ v, validateISBNJs v = .ok true ↔
      ∃ s, v = .str s ∧ (s.length = 10 ∨ s.length = 13) ∧ ∀ c ∈ s, c.isDigit = true) ∧
    (∀ s : List Char, ('-' ∈ s ∨ ' ' ∈ s) → validateISBNJs (.str s) ≠ .ok true) := by
  constructor
  · intro v
    cases v with
    | str s =>
      constructor
      · intro h
        have hb : validateISBN s = true := by injection h
        exact ⟨s, rfl, (validateISBN_iff s).mp hb⟩
      · rintro ⟨s2, hs2, hrest⟩
        injection hs2 with hs2
        subst hs2
        exact congrArg Except.ok ((validateISBN_iff s).mpr hrest)
    | other =>
      constructor
      · intro h
        exact Except.noConfusion h
      · rintro ⟨s, hs, -⟩
        exact JsValue.noConfusion hs
  · rintro s hmem h
    have hb : validateISBN s = true := by injection h
    obtain ⟨-, hdig⟩ := (validateISBN_iff s).mp hb
    rcases hmem with hm | hm
    · exact absurd (hdig _ hm) (by decide)
    · exact absurd (hdig _ hm) (by decide)

end BookSearch
